import Mathlib

/-!
Verification of the attention-computation engine in
`nemo/collections/asr/parts/submodules/multi_head_attention.py`.

The tensors of the source are embedded as functions from (natural-number)
indices to scalars; every tensor operation of the source (padding, flat-memory
view/reshape, slice assignment, masked fill) is embedded as the corresponding
explicit index arithmetic.  All operations of the source act pointwise on the
batch and head axes, so matrices are modelled per batch element and per head
where nothing mixes those axes; the head-mixing linear projections are
modelled explicitly.  Float arithmetic is idealized as real arithmetic
(`ℝ`), the float value `-inf` produced by `masked_fill(-float('inf'))` is
modelled by `⊥` in `WithBot ℝ`, and `torch.softmax` over a row containing
`-inf` entries is the normalized exponential that assigns weight `0` to those
entries.
-/

set_option maxHeartbeats 1000000

/-! ## Relative shift (`RelPositionMultiHeadAttention.rel_shift`, lines 185-196)

`rel_shift` pads one zero column on the left of a `(T, 2T-1)` matrix,
reinterprets the flat memory as `(2T, T)`, drops the first row and
reinterprets back as `(T, 2T-1)`.  `relPad` is the padding step and
`relShift` composes the three memory reinterpretations as flat-index
arithmetic: element `(i, j)` of the final view is flat element
`T + i*(2T-1) + j` of the padded matrix, whose rows have width `2T`. -/

def relPad {α : Type} [Zero α] (raw : ℕ → ℕ → α) (i c : ℕ) : α :=
  if c = 0 then 0 else raw i (c - 1)

def relShift {α : Type} [Zero α] (T : ℕ) (raw : ℕ → ℕ → α) (i j : ℕ) : α :=
  relPad raw ((T + (i * (2 * T - 1) + j)) / (2 * T)) ((T + (i * (2 * T - 1) + j)) % (2 * T))

/-- C2: for every input `raw` of logical shape `(T, 2T-1)`, applying
`rel_shift` and truncating to the width `T` of the content-content matrix
yields `bd` with `bd[i, j] = raw[i, j - i + (T-1)]` for all valid `i, j`:
entry `[i, j]` reads the unshifted table directly at relative offset
`j - i` (column `j - i + (T-1)`). -/
theorem rel_shift_offset_correct {α : Type} [Zero α] (T i j : ℕ) (raw : ℕ → ℕ → α)
    (hi : i < T) (hj : j < T) :
    relShift T raw i j = raw i (j + (T - 1) - i) := by
  have hT : 0 < T := by omega
  -- the flat index decomposes as i * (2T) + s with s = T + j - i, 0 < s < 2T
  have hmul : i * (2 * T - 1) + i = i * (2 * T) := by
    have h2T : 2 * T - 1 + 1 = 2 * T := by omega
    calc i * (2 * T - 1) + i = i * (2 * T - 1 + 1) := by rw [Nat.mul_succ]
    _ = i * (2 * T) := by rw [h2T]
  have hflat : T + (i * (2 * T - 1) + j) = (T + j - i) + i * (2 * T) := by omega
  have hs1 : 0 < T + j - i := by omega
  have hs2 : T + j - i < 2 * T := by omega
  have hdiv : (T + (i * (2 * T - 1) + j)) / (2 * T) = i := by
    rw [hflat, Nat.add_mul_div_right _ _ (by omega : 0 < 2 * T),
      Nat.div_eq_of_lt hs2, Nat.zero_add]
  have hmod : (T + (i * (2 * T - 1) + j)) % (2 * T) = T + j - i := by
    rw [hflat, Nat.add_mul_mod_self_right, Nat.mod_eq_of_lt hs2]
  rw [relShift, hdiv, hmod, relPad, if_neg (by omega)]
  congr 1
  omega

/-- Witness for `rel_shift_offset_correct` at `T = 2`, `i = 1`, `j = 0`. -/
theorem rel_shift_offset_correct_witness :
    1 < 2 ∧ 0 < 2 ∧
      relShift 2 (fun i j => 10 * i + j) 1 0 = (fun i j => 10 * i + j) 1 (0 + (2 - 1) - 1) :=
  ⟨by decide, by decide, rel_shift_offset_correct 2 1 0 (fun i j => 10 * i + j) (by decide) (by decide)⟩

/-! ## Streaming cache update (`MultiHeadAttention.update_cache`, lines 148-155)

Per batch element, the time axis of a cache slot is a `List α` of frames
(`α` stands for one feature row).  The python slice assignments
`buf[:-k] = src` and `buf[-k:] = src` on a buffer of length `L` are embedded
as `sliceSetFront` and `sliceSetBack`. -/

def sliceSetFront {α : Type} (buf src : List α) (k : ℕ) : List α :=
  src.take (buf.length - k) ++ buf.drop (buf.length - k)

def sliceSetBack {α : Type} (buf src : List α) (k : ℕ) : List α :=
  buf.take (buf.length - k) ++ src.take k

/-- `update_cache`: when a cache slot is present the key and value both become
the cache frames prepended to the incoming key; when a next-cache buffer is
also present, its slot is overwritten by the two slice assignments of the
source with `keep = query.length - dropSize`.  The fourth component of the
result is the content of the next-cache buffer after the call. -/
def updateCache {α : Type} (key value query : List α)
    (cacheSlot cacheNextSlot : Option (List α)) (dropSize : ℕ) :
    List α × List α × List α × Option (List α) :=
  match cacheSlot with
  | none => (key, value, query, cacheNextSlot)
  | some c =>
    (c ++ key, c ++ key, query,
      cacheNextSlot.map (fun buf =>
        sliceSetBack (sliceSetFront buf (c.drop (query.length - dropSize)) (query.length - dropSize))
          (query.take (query.length - dropSize)) (query.length - dropSize)))

/-- C4: with a cache slot `c` supplied, the returned key and value are both
`c ++ key` (cache frames concatenated ahead of the incoming key along the
time axis), and with a next-cache buffer of the cache's length also supplied,
the next-cache slot is written as the old cache's frames from index
`keep = query.length - dropSize` onward, followed by the first `keep` frames
of the pre-update query. -/
theorem update_cache_concat_and_next {α : Type} (key value query c buf : List α)
    (dropSize : ℕ) (hlen : buf.length = c.length)
    (hkc : query.length - dropSize ≤ c.length)
    (hkeep : 0 < query.length - dropSize) :
    updateCache key value query (some c) (some buf) dropSize =
      (c ++ key, c ++ key, query,
        some (c.drop (query.length - dropSize) ++ query.take (query.length - dropSize))) := by
  have _ := hkeep
  simp only [updateCache, Option.map_some', Prod.mk.injEq, Option.some.injEq, true_and]
  have hfront :
      sliceSetFront buf (c.drop (query.length - dropSize)) (query.length - dropSize) =
        c.drop (query.length - dropSize) ++ buf.drop (buf.length - (query.length - dropSize)) := by
    rw [sliceSetFront]
    congr 1
    refine List.take_of_length_le ?_
    rw [List.length_drop]
    omega
  rw [hfront, sliceSetBack]
  have hlen2 :
      (c.drop (query.length - dropSize) ++ buf.drop (buf.length - (query.length - dropSize))).length
        = buf.length := by
    simp only [List.length_append, List.length_drop]
    omega
  have hdroplen : (c.drop (query.length - dropSize)).length = buf.length - (query.length - dropSize) := by
    rw [List.length_drop]
    omega
  rw [hlen2, ← hdroplen, List.take_left, List.take_take, Nat.min_self]

/-- Witness for `update_cache_concat_and_next`: cache `[1, 2]`, next-cache
buffer `[8, 9]`, query `[5]`, drop size `0`, so `keep = 1`. -/
theorem update_cache_concat_and_next_witness :
    ([8, 9] : List ℕ).length = ([1, 2] : List ℕ).length ∧
      ([5] : List ℕ).length - 0 ≤ ([1, 2] : List ℕ).length ∧
      0 < ([5] : List ℕ).length - 0 ∧
      updateCache [7] [7] [5] (some [1, 2]) (some [8, 9]) 0 =
        ([1, 2, 7], [1, 2, 7], [5], some [2, 5]) :=
  ⟨by decide, by decide, by decide, by
    have h := update_cache_concat_and_next ([7] : List ℕ) [7] [5] [1, 2] [8, 9] 0
      (by decide) (by decide) (by decide)
    simpa using h⟩

/-- C10: with no cache supplied, `update_cache` returns key, value and query
unchanged and writes nothing (the next-cache buffer keeps its content); with a
cache supplied but no next-cache buffer, key and value are extended from the
cache while no buffer is written. -/
theorem update_cache_no_cache_frame {α : Type} (key value query c : List α)
    (cacheNextSlot : Option (List α)) (dropSize : ℕ) :
    updateCache key value query none cacheNextSlot dropSize = (key, value, query, cacheNextSlot) ∧
      updateCache key value query (some c) none dropSize = (c ++ key, c ++ key, query, none) :=
  ⟨rfl, rfl⟩

/-! ## Window-size check of the banded forward
(`RelPositionMultiHeadAttentionLongformer.forward`, lines 290-302)

The forward first runs `update_cache`, then projects query/key/value, and only
then computes `w = max(left, right)` and raises `ValueError` when `w <= 0`.
The model returns the `Except` outcome together with the content of the
next-cache buffer after the call; the remainder of the forward (which only
runs when the check passes) is abstracted as `rest`. -/

def lfForwardGate {α β : Type} (l r : ℤ) (key value query : List α)
    (cacheSlot cacheNextSlot : Option (List α)) (dropSize : ℕ)
    (rest : List α → List α → List α → β) : Except String β × Option (List α) :=
  if max l r ≤ 0 then
    (Except.error "When using local attention, context size must be set > 0",
      (updateCache key value query cacheSlot cacheNextSlot dropSize).2.2.2)
  else
    (Except.ok (rest (updateCache key value query cacheSlot cacheNextSlot dropSize).1
        (updateCache key value query cacheSlot cacheNextSlot dropSize).2.1
        (updateCache key value query cacheSlot cacheNextSlot dropSize).2.2.1),
      (updateCache key value query cacheSlot cacheNextSlot dropSize).2.2.2)

/-- C5 counterexample: with `att_context_size = (0, 0)` (so `w = 0`), a cache
slot `[3]` and a next-cache buffer `[9]`, the forward does raise the
configuration error, but the next-cache buffer has already been overwritten
(it holds `[7]`, the kept query frame, instead of its original content `[9]`):
the error is not raised before the cache update. -/
theorem window_check_counterexample :
    lfForwardGate (α := ℕ) (β := Unit) 0 0 [5] [5] [7] (some [3]) (some [9]) 0
        (fun _ _ _ => ()) =
      (Except.error "When using local attention, context size must be set > 0", some [7]) ∧
      (some [7] : Option (List ℕ)) ≠ some [9] := by
  constructor
  · rfl
  · decide

/-- C5 (amended): calling the banded-attention forward with
`w = max(left, right) ≤ 0` raises the configuration `ValueError` (and the
banded score computation never runs), but only after `update_cache` has
executed — in particular a supplied next-cache buffer is written before the
error is raised. -/
theorem window_check_after_cache_update {α β : Type} (l r : ℤ) (key value query : List α)
    (cacheSlot cacheNextSlot : Option (List α)) (dropSize : ℕ)
    (rest : List α → List α → List α → β) (hw : max l r ≤ 0) :
    (lfForwardGate l r key value query cacheSlot cacheNextSlot dropSize rest).1 =
        Except.error "When using local attention, context size must be set > 0" ∧
      (lfForwardGate l r key value query cacheSlot cacheNextSlot dropSize rest).2 =
        (updateCache key value query cacheSlot cacheNextSlot dropSize).2.2.2 := by
  rw [lfForwardGate, if_pos hw]
  exact ⟨rfl, rfl⟩

/-- Witness for `window_check_after_cache_update` at `l = r = 0`. -/
theorem window_check_after_cache_update_witness :
    (max (0 : ℤ) 0 ≤ 0) ∧
      ((lfForwardGate (α := ℕ) (β := Unit) 0 0 [5] [5] [7] (some [3]) (some [9]) 0
            (fun _ _ _ => ())).1 =
          Except.error "When using local attention, context size must be set > 0" ∧
        (lfForwardGate (α := ℕ) (β := Unit) 0 0 [5] [5] [7] (some [3]) (some [9]) 0
            (fun _ _ _ => ())).2 =
          (updateCache ([5] : List ℕ) [5] [7] (some [3]) (some [9]) 0).2.2.2) :=
  ⟨by decide,
    window_check_after_cache_update 0 0 [5] [5] [7] (some [3]) (some [9]) 0 (fun _ _ _ => ())
      (by decide)⟩

/-! ## Masked softmax (`MultiHeadAttention.forward_attention`, lines 99-120)

Per batch element, head and query row: masked score entries are replaced by
`-10000`, the row is exponentiated and normalized over all `n` key positions,
and masked entries are re-zeroed after the softmax.  Dropout is the identity
at inference. -/

noncomputable def maskedScores (scores : ℕ → ℝ) (mask : ℕ → Bool) (j : ℕ) : ℝ :=
  if mask j then -10000 else scores j

noncomputable def attnRow (n : ℕ) (scores : ℕ → ℝ) (mask : ℕ → Bool) (j : ℕ) : ℝ :=
  if mask j then 0
  else Real.exp (maskedScores scores mask j) /
    ∑ t in Finset.range n, Real.exp (maskedScores scores mask t)

/-- C3 counterexample: for a row of two keys with scores `0` where key `1` is
masked, the attention weights do not sum to `1` over the unmasked positions:
the masked key keeps weight `exp (-10000) > 0` inside the softmax normalizer,
so the unmasked sum is `exp 0 / (exp 0 + exp (-10000)) < 1`. -/
theorem masked_softmax_row_counterexample :
    (∑ j in (Finset.range 2).filter (fun j => (decide (j = 1)) = false),
        attnRow 2 (fun _ => 0) (fun j => decide (j = 1)) j) ≠ 1 := by
  have hfilter : (Finset.range 2).filter (fun j => (decide (j = 1)) = false) = {0} := by decide
  rw [hfilter, Finset.sum_singleton, attnRow]
  rw [if_neg (by simp)]
  rw [Finset.sum_range_succ, Finset.sum_range_succ, Finset.sum_range_zero]
  simp only [maskedScores, decide_eq_true_eq]
  norm_num

/-- C3 (amended): for every score row, boolean mask and key count `n`, the
attention weight at every masked position is exactly `0`, and the sum of the
weights over the unmasked positions equals `A / (A + m * exp (-10000))` where
`A` is the sum of `exp (score)` over the unmasked positions and `m` the number
of masked positions — equal to `1` exactly when the (nonempty) row has no
masked position, and strictly less than `1` otherwise. -/
theorem masked_softmax_row_amended (n : ℕ) (scores : ℕ → ℝ) (mask : ℕ → Bool) :
    (∀ j, mask j = true → attnRow n scores mask j = 0) ∧
      (∑ j in (Finset.range n).filter (fun j => mask j = false), attnRow n scores mask j) =
        (∑ j in (Finset.range n).filter (fun j => mask j = false), Real.exp (scores j)) /
          ((∑ j in (Finset.range n).filter (fun j => mask j = false), Real.exp (scores j)) +
            ((Finset.range n).filter (fun j => mask j = true)).card * Real.exp (-10000)) := by
  constructor
  · intro j hj
    rw [attnRow, if_pos hj]
  · have hsplit :
        (∑ t in Finset.range n, Real.exp (maskedScores scores mask t)) =
          (∑ j in (Finset.range n).filter (fun j => mask j = false), Real.exp (scores j)) +
            ((Finset.range n).filter (fun j => mask j = true)).card * Real.exp (-10000) := by
      rw [← Finset.sum_filter_add_sum_filter_not (Finset.range n) (fun j => mask j = true)
        (fun t => Real.exp (maskedScores scores mask t))]
      rw [add_comm]
      congr 1
      · have hset : (Finset.range n).filter (fun j => ¬ mask j = true) =
            (Finset.range n).filter (fun j => mask j = false) := by
          apply Finset.filter_congr
          intro j _
          simp [Bool.not_eq_true]
        rw [hset]
        refine Finset.sum_congr rfl ?_
        intro j hj
        rw [Finset.mem_filter] at hj
        simp only [maskedScores]
        rw [if_neg (by simp [hj.2])]
      · have hval : ∀ j ∈ (Finset.range n).filter (fun j => mask j = true),
            Real.exp (maskedScores scores mask j) = Real.exp (-10000) := by
          intro j hj
          rw [Finset.mem_filter] at hj
          simp only [maskedScores]
          rw [if_pos hj.2]
        rw [Finset.sum_congr rfl hval, Finset.sum_const, nsmul_eq_mul]
    have hrow : ∀ j ∈ (Finset.range n).filter (fun j => mask j = false),
        attnRow n scores mask j =
          Real.exp (scores j) / ∑ t in Finset.range n, Real.exp (maskedScores scores mask t) := by
      intro j hj
      rw [Finset.mem_filter] at hj
      rw [attnRow, if_neg (by simp [hj.2]), maskedScores, if_neg (by simp [hj.2])]
    rw [Finset.sum_congr rfl hrow, ← Finset.sum_div, hsplit]

/-- Witness for `masked_softmax_row_amended` at `n = 2`, zero scores, key `1`
masked. -/
theorem masked_softmax_row_amended_witness :
    (∀ j, (fun j => decide (j = 1)) j = true →
        attnRow 2 (fun _ => 0) (fun j => decide (j = 1)) j = 0) ∧
      (∑ j in (Finset.range 2).filter (fun j => (fun j => decide (j = 1)) j = false),
          attnRow 2 (fun _ => 0) (fun j => decide (j = 1)) j) =
        (∑ j in (Finset.range 2).filter (fun j => (fun j => decide (j = 1)) j = false),
            Real.exp ((fun _ => (0 : ℝ)) j)) /
          ((∑ j in (Finset.range 2).filter (fun j => (fun j => decide (j = 1)) j = false),
              Real.exp ((fun _ => (0 : ℝ)) j)) +
            ((Finset.range 2).filter (fun j => (fun j => decide (j = 1)) j = true)).card *
              Real.exp (-10000)) :=
  masked_softmax_row_amended 2 (fun _ => 0) (fun j => decide (j = 1))

/-! ## Positional encoding generators (`PositionalEncoding`, `RelPositionalEncoding`,
`LocalAttRelPositionalEncoding`, lines 558-710)

`create_pe` fills row `r` of the table from a position value via the
sinusoidal formula; the three classes differ only in which position value each
row carries and in the growth condition of `extend_pe`.  A not-yet-built
buffer (`hasattr(self, 'pe')` false) is `none`. -/

noncomputable def divTerm (d i : ℕ) : ℝ :=
  Real.exp (-((i : ℝ) * Real.log 10000) / (d : ℝ))

noncomputable def peVal (d : ℕ) (pos : ℝ) (i : ℕ) : ℝ :=
  if i % 2 = 0 then Real.sin (pos * divTerm d i) else Real.cos (pos * divTerm d (i - 1))

structure PETable where
  len : ℕ
  tab : ℕ → ℕ → ℝ

noncomputable def createPeAbs (d L : ℕ) : PETable :=
  ⟨L, fun r i => peVal d (r : ℝ) i⟩

noncomputable def extendPeAbs (d : ℕ) (st : Option PETable) (L : ℕ) : Option PETable :=
  match st with
  | some s => if L ≤ s.len then some s else some (createPeAbs d L)
  | none => some (createPeAbs d L)

noncomputable def createPeRel (d L : ℕ) : PETable :=
  ⟨2 * L - 1, fun r i => peVal d (((L : ℤ) - 1 - (r : ℤ) : ℤ) : ℝ) i⟩

noncomputable def extendPeRel (d : ℕ) (st : Option PETable) (L : ℕ) : Option PETable :=
  match st with
  | some s => if 2 * L - 1 ≤ s.len then some s else some (createPeRel d L)
  | none => some (createPeRel d L)

noncomputable def createPeLocal (d leftCtx rightCtx : ℕ) : PETable :=
  ⟨leftCtx + rightCtx + 1, fun r i => peVal d (((leftCtx : ℤ) - (r : ℤ) : ℤ) : ℝ) i⟩

noncomputable def extendPeLocal (d leftCtx rightCtx : ℕ) (st : Option PETable) (_L : ℕ) :
    Option PETable :=
  match st with
  | some s => some s
  | none => some (createPeLocal d leftCtx rightCtx)

noncomputable def tabOf (st : Option PETable) : ℕ → ℕ → ℝ :=
  fun r i => match st with
  | some s => s.tab r i
  | none => 0

/-- C7: extending a positional table (absolute or global-relative) to length
`L1` and then to `L2 ≥ L1` yields a table that agrees, at every offset valid
at length `L1`, with the table obtained by extending directly to `L2` (for
the relative table, offset `o` lives at row `L2 - 1 - o`); and a request for
a length already covered by the buffer leaves the buffer unchanged. -/
theorem extend_pe_monotone (d L1 L2 : ℕ) (h1 : 0 < L1) (h12 : L1 ≤ L2) :
    (∀ r i, r < L1 →
        tabOf (extendPeAbs d (extendPeAbs d none L1) L2) r i =
          tabOf (extendPeAbs d none L2) r i) ∧
      (∀ (o : ℤ) (i : ℕ), o.natAbs ≤ L1 - 1 →
        tabOf (extendPeRel d (extendPeRel d none L1) L2) (((L2 : ℤ) - 1 - o).toNat) i =
          tabOf (extendPeRel d none L2) (((L2 : ℤ) - 1 - o).toNat) i) ∧
      (∀ (s : PETable) (L : ℕ), L ≤ s.len → extendPeAbs d (some s) L = some s) ∧
      (∀ (s : PETable) (L : ℕ), 2 * L - 1 ≤ s.len → extendPeRel d (some s) L = some s) := by
  have habs : extendPeAbs d (extendPeAbs d none L1) L2 = extendPeAbs d none L2 := by
    simp only [extendPeAbs]
    by_cases h : L2 ≤ (createPeAbs d L1).len
    · rw [if_pos h]
      simp only [createPeAbs] at h ⊢
      have : L1 = L2 := by omega
      rw [this]
    · rw [if_neg h]
  have hrel : extendPeRel d (extendPeRel d none L1) L2 = extendPeRel d none L2 := by
    simp only [extendPeRel]
    by_cases h : 2 * L2 - 1 ≤ (createPeRel d L1).len
    · rw [if_pos h]
      simp only [createPeRel] at h ⊢
      have : L1 = L2 := by omega
      rw [this]
    · rw [if_neg h]
  refine ⟨fun r i _ => by rw [habs], fun o i _ => by rw [hrel], fun s L hL => ?_, fun s L hL => ?_⟩
  · simp only [extendPeAbs, if_pos hL]
  · simp only [extendPeRel, if_pos hL]

/-- Witness for `extend_pe_monotone` at `d = 2`, `L1 = 1`, `L2 = 2`. -/
theorem extend_pe_monotone_witness :
    0 < 1 ∧ 1 ≤ 2 ∧
      tabOf (extendPeAbs 2 (extendPeAbs 2 none 1) 2) 0 0 = tabOf (extendPeAbs 2 none 2) 0 0 :=
  ⟨by decide, by decide, (extend_pe_monotone 2 1 2 (by decide) (by decide)).1 0 0 (by decide)⟩

/-- The slice taken by `RelPositionalEncoding.forward`: returns the width
`end_pos - start_pos` of the slice together with the sliced table. -/
noncomputable def relPeForwardEmb (st : PETable) (T c : ℕ) : ℕ × (ℕ → ℕ → ℝ) :=
  (st.len / 2 + 1 + (T + c) - 1 - (st.len / 2 + 1 - (T + c)),
    fun r i => st.tab (st.len / 2 + 1 - (T + c) + r) i)

/-- C8: for an input of length `T` with cache length `c`, against a buffer
built for length `L ≥ T + c`, `RelPositionalEncoding.forward` slices a window
of width `2*(T+c) - 1` that is centered on the table row representing offset
`0`: row `r` of the slice carries position `(T+c-1) - r`, so the slice covers
exactly the relative offsets from `+(T+c-1)` down to `-(T+c-1)`. -/
theorem rel_pe_forward_window (d L T c : ℕ) (h1 : 0 < T + c) (h2 : T + c ≤ L) :
    (relPeForwardEmb (createPeRel d L) T c).1 = 2 * (T + c) - 1 ∧
      ∀ r i, r < 2 * (T + c) - 1 →
        (relPeForwardEmb (createPeRel d L) T c).2 r i =
          peVal d (((T : ℤ) + (c : ℤ) - 1 - (r : ℤ) : ℤ) : ℝ) i := by
  have hlen : (createPeRel d L).len = 2 * L - 1 := rfl
  have hdiv : (2 * L - 1) / 2 = L - 1 := by omega
  constructor
  · simp only [relPeForwardEmb, hlen, hdiv]
    omega
  · intro r i hr
    simp only [relPeForwardEmb, hlen, hdiv, createPeRel]
    congr 2
    omega

/-- Witness for `rel_pe_forward_window` at `d = 2`, `L = 2`, `T = 1`, `c = 1`. -/
theorem rel_pe_forward_window_witness :
    0 < 1 + 1 ∧ 1 + 1 ≤ 2 ∧
      (relPeForwardEmb (createPeRel 2 2) 1 1).1 = 2 * (1 + 1) - 1 :=
  ⟨by decide, by decide, (rel_pe_forward_window 2 2 1 1 (by decide) (by decide)).1⟩

/-- C9: the local-window positional table spans exactly the offsets `+left`
down to `-right` (row `r` carries position `left - r`, and the table has
`left + right + 1` rows), it is built exactly once at the first `extend_pe`
call (for any requested length), and every subsequent `extend_pe` call, for
any requested length, leaves the table unchanged. -/
theorem local_pe_fixed (d leftCtx rightCtx : ℕ) :
    (∀ (s : PETable) (L : ℕ), extendPeLocal d leftCtx rightCtx (some s) L = some s) ∧
      (∀ L : ℕ, extendPeLocal d leftCtx rightCtx none L = some (createPeLocal d leftCtx rightCtx)) ∧
      (createPeLocal d leftCtx rightCtx).len = leftCtx + rightCtx + 1 ∧
      (∀ r i, (createPeLocal d leftCtx rightCtx).tab r i =
        peVal d (((leftCtx : ℤ) - (r : ℤ) : ℤ) : ℝ) i) :=
  ⟨fun _ _ => rfl, fun _ => rfl, rfl, fun _ _ => rfl⟩

/-! ## Banded QK^T (`sliding_chunks_matmul_qk`, `_skew`, `_chunk_overlap`,
`mask_invalid_locations`, lines 363-515)

All per-chunk operations act independently on each `(batch, head)` slice, so
the machinery is modelled per slice, with `q, k : time → dim → K`.

`chunkAttnM` is one entry of the `einsum` over the overlapping chunks
produced by `_chunk_overlap` (chunk `c` starts at time `c*w`).  `dcaM` is one
entry of `diagonal_chunk_attn`: `_skew` pads one row of `padding_value` below
the `(2w, 2w)` block and reinterprets the flat memory with the trailing two
dimensions swapped, so entry `(X, Y)` of the `(2w, 2w+1)` result is flat
element `X*(2w+1) + Y` of the padded `(2w+1, 2w)` block.  `bandQKraw` is the
assembly of `diagonal_attn` from the four slice assignments of the source
(`new_empty` leaves the never-assigned region reading from the arbitrary
function `uninit`), and `bandQK` applies `mask_invalid_locations`, whose
triangular masks at the `w` first rows (columns `0..w`) and `w` last rows
(columns `w..2w`) reduce to `i + j < w` and `n + w ≤ i + j`; the masked
entries become `-inf`, i.e. `⊥` in `WithBot K`. -/

def dotp {K : Type} [LinearOrderedField K] (dk : ℕ) (x y : ℕ → K) : K :=
  ∑ d in Finset.range dk, x d * y d

def chunkAttnM {K : Type} [LinearOrderedField K] (dk w : ℕ) (q k : ℕ → ℕ → K)
    (c x y : ℕ) : K :=
  dotp dk (q (c * w + x)) (k (c * w + y))

def dcaM {K : Type} [LinearOrderedField K] (dk w : ℕ) (q k : ℕ → ℕ → K) (padv : K)
    (c X Y : ℕ) : K :=
  if (X * (2 * w + 1) + Y) / (2 * w) < 2 * w then
    chunkAttnM dk w q k c ((X * (2 * w + 1) + Y) / (2 * w)) ((X * (2 * w + 1) + Y) % (2 * w))
  else padv

def bandQKraw {K : Type} [LinearOrderedField K] (dk w n : ℕ) (q k : ℕ → ℕ → K)
    (padv : K) (uninit : ℕ → ℕ → K) (i j : ℕ) : K :=
  if w ≤ j then
    if i / w = n / w - 1 then dcaM dk w q k padv (n / w - 1 - 1) (w + i % w) (j - w)
    else dcaM dk w q k padv (i / w) (i % w) (j - w)
  else if i / w = 0 then
    if 1 ≤ i % w ∧ 1 ≤ j then dcaM dk w q k padv 0 (i % w - 1) (w + 1 + j) else uninit i j
  else dcaM dk w q k padv (i / w - 1) (w - 1 + i % w) (w + 1 + j)

def bandQK {K : Type} [LinearOrderedField K] (dk w n : ℕ) (q k : ℕ → ℕ → K)
    (padv : K) (uninit : ℕ → ℕ → K) (i j : ℕ) : WithBot K :=
  if i + j < w ∨ n + w ≤ i + j then (⊥ : WithBot K)
  else ((bandQKraw dk w n q k padv uninit i j : K) : WithBot K)

/-! ## Banded score combination
(`RelPositionMultiHeadAttentionLongformer.forward`, lines 318-338)

Per query row `i`, `ac` is the row of `diagonal_matrix_ac` (entries in
`WithBot K` because `mask_invalid_locations` has already written `-inf` into
it) and `bd` the row of `diagonal_matrix_bd` (width `left + right + 1`).
The source adds `bd[:, :left]` into band columns `0..left-1` and
`bd[:, left:]` into the last `right + 1` band columns (columns
`2w - right .. 2w`), divides by `sqrt d_k`, and then overwrites every band
column outside `[w - left, w + right]` with `-10000`. -/

def bandCombineRow {K : Type} [LinearOrderedField K] (leftCtx rightCtx : ℕ) (sdk : K)
    (ac bd : ℕ → WithBot K) (j : ℕ) : WithBot K :=
  if j < max leftCtx rightCtx - leftCtx ∨ max leftCtx rightCtx + rightCtx < j then
    ((-10000 : K) : WithBot K)
  else
    WithBot.map (fun a => a / sdk)
      (ac j + (if j < leftCtx then bd j else 0) +
        (if 2 * max leftCtx rightCtx - rightCtx ≤ j then
          bd (leftCtx + (j - (2 * max leftCtx rightCtx - rightCtx))) else 0))

/-- C6 counterexample: with `left = 2`, `right = 1` (so `w = 2`), the
content-position bias for relative offset `0` (column `left + 0 = 2` of the
`bd` matrix) is not added at band column `w + 0 = 2`: with `ac = 0`,
`bd = 1` and `sqrt d_k = 1` the combined score at band column `2` is `0`,
whereas the claim demands `(ac + bd)/sdk = 1` — column `2` lies inside the
valid band `[w - left, w + right] = [0, 3]`, so it is not overwritten by the
`-10000` masking either. -/
theorem band_bias_alignment_counterexample :
    bandCombineRow (K := ℚ) 2 1 1 (fun _ => 0) (fun _ => 1) 2 ≠
      WithBot.map (fun a => a / (1 : ℚ)) ((fun _ => (0 : WithBot ℚ)) 2 + (fun _ => (1 : WithBot ℚ)) 2) := by
  have hL : bandCombineRow (K := ℚ) 2 1 1 (fun _ => 0) (fun _ => 1) 2 =
      ((0 : ℚ) : WithBot ℚ) := by
    rw [bandCombineRow, if_neg (by decide), if_neg (by decide), if_neg (by decide)]
    rw [add_zero, add_zero, ← WithBot.coe_zero, WithBot.map_coe]
    norm_num
  have hR : WithBot.map (fun a => a / (1 : ℚ))
      ((fun _ => (0 : WithBot ℚ)) 2 + (fun _ => (1 : WithBot ℚ)) 2) = ((1 : ℚ) : WithBot ℚ) := by
    show WithBot.map (fun a => a / (1 : ℚ)) ((0 : WithBot ℚ) + (1 : WithBot ℚ)) = _
    rw [zero_add, ← WithBot.coe_one, WithBot.map_coe]
    norm_num
  rw [hL, hR]
  simp only [ne_eq, WithBot.coe_inj]
  norm_num

/-- C6 (amended): for every configuration, every band column outside
`[w - left, w + right]` is overwritten with `-10000` before the softmax; and
when `left = right` (so `w = left = right`) the content-position bias for
relative offset `d = j - w` is added at band column `j` for every `j` in the
band — i.e. bias column `j` of `bd` (offset `j - left`) lands exactly at the
band column encoding offset `j - w`.  For `left ≠ right` the two `bd` halves
land at columns `0..left-1` and `2w-right..2w`, which are not the
offset-aligned columns. -/
theorem band_bias_alignment_amended {K : Type} [LinearOrderedField K]
    (leftCtx rightCtx : ℕ) (sdk : K) (ac bd : ℕ → WithBot K) :
    (∀ j, (j < max leftCtx rightCtx - leftCtx ∨ max leftCtx rightCtx + rightCtx < j) →
        bandCombineRow leftCtx rightCtx sdk ac bd j = ((-10000 : K) : WithBot K)) ∧
      (leftCtx = rightCtx → ∀ j, j ≤ 2 * leftCtx →
        bandCombineRow leftCtx rightCtx sdk ac bd j =
          WithBot.map (fun a => a / sdk) (ac j + bd j)) := by
  constructor
  · intro j hj
    rw [bandCombineRow, if_pos hj]
  · intro hlr j hj
    subst hlr
    rw [bandCombineRow, if_neg (by omega)]
    simp only [max_self]
    rcases lt_or_ge j leftCtx with h | h
    · rw [if_pos h, if_neg (by omega)]
      rw [add_zero]
    · rw [if_neg (by omega), if_pos (by omega)]
      have : leftCtx + (j - (2 * leftCtx - leftCtx)) = j := by omega
      rw [this, add_zero]

/-- Witness for `band_bias_alignment_amended` at `left = right = 1`,
`sdk = 1`, `ac = 0`, `bd = 1`, over `ℚ`. -/
theorem band_bias_alignment_amended_witness :
    ((3 < 1 - 1 ∨ 1 + 1 < 3) ∧
        bandCombineRow (K := ℚ) 1 1 1 (fun _ => 0) (fun _ => 1) 3 = ((-10000 : ℚ) : WithBot ℚ)) ∧
      ((1 : ℕ) = 1 ∧ 1 ≤ 2 * 1 ∧
        bandCombineRow (K := ℚ) 1 1 1 (fun _ => 0) (fun _ => 1) 1 =
          WithBot.map (fun a => a / (1 : ℚ))
            ((fun _ => (0 : WithBot ℚ)) 1 + (fun _ => (1 : WithBot ℚ)) 1)) :=
  ⟨⟨by decide,
      (band_bias_alignment_amended (K := ℚ) 1 1 1 (fun _ => 0) (fun _ => 1)).1 3 (by decide)⟩,
    ⟨rfl, by decide,
      (band_bias_alignment_amended (K := ℚ) 1 1 1 (fun _ => 0) (fun _ => 1)).2 rfl 1 (by decide)⟩⟩

/-! ## Full banded forward
(`RelPositionMultiHeadAttentionLongformer.forward`, lines 276-359, and
`sliding_chunks_matmul_pv` / `_skew2`, lines 379-396 and 517-555)

`LfArgs` carries the per-head state of one forward call after `forward_qkv`
(no cache in this path: `update_cache` with `cache = None` is the identity,
see `update_cache_no_cache_frame`): `q, k, v` are the unpadded per-head
projections, `posP` the per-head projection of the local positional table,
`uB, vB` the per-head bias vectors, `sdk = sqrt d_k`, `pm` the key-padding
mask, and `un1, un2` the arbitrary contents of the `new_empty` regions of the
two `sliding_chunks_matmul_qk` calls. -/

def padLen (T w : ℕ) : ℕ := (2 * w - T % (2 * w)) % (2 * w)

def lfN (T w : ℕ) : ℕ := T + padLen T w

def paddedT {K : Type} [LinearOrderedField K] (T : ℕ) (x : ℕ → ℕ → K) : ℕ → ℕ → K :=
  fun t d => if t < T then x t d else 0

def maskPadded (T : ℕ) (pm : ℕ → Bool) (t : ℕ) : Bool :=
  if t < T then pm t else true

def floatMaskF {K : Type} [LinearOrderedField K] (T : ℕ) (pm : ℕ → Bool) : ℕ → ℕ → K :=
  fun t _ => if maskPadded T pm t then -10000 else 0

def onesF {K : Type} [LinearOrderedField K] : ℕ → ℕ → K := fun _ _ => 1

def addBias {K : Type} [LinearOrderedField K] (x : ℕ → ℕ → K) (b : ℕ → K) : ℕ → ℕ → K :=
  fun t d => x t d + b d

structure LfArgs where
  leftCtx : ℕ
  rightCtx : ℕ
  dk : ℕ
  T : ℕ
  q : ℕ → ℕ → ℝ
  k : ℕ → ℕ → ℝ
  v : ℕ → ℕ → ℝ
  posP : ℕ → ℕ → ℝ
  uB : ℕ → ℝ
  vB : ℕ → ℝ
  sdk : ℝ
  pm : ℕ → Bool
  un1 : ℕ → ℕ → ℝ
  un2 : ℕ → ℕ → ℝ

def lfW (A : LfArgs) : ℕ := max A.leftCtx A.rightCtx

/-- Row `i` of `diagonal_matrix_ac`: the banded `(Q+u)·Kᵗ` on the padded
tensors, with `mask_invalid_locations` applied. -/
noncomputable def lfAcRow (A : LfArgs) (i j : ℕ) : WithBot ℝ :=
  bandQK A.dk (lfW A) (lfN A.T (lfW A)) (addBias (paddedT A.T A.q) A.uB)
    (paddedT A.T A.k) 0 A.un1 i j

/-- Row `i` of `diagonal_matrix_bd`: dense `(Q+v)·Pᵗ` against the local
positional table. -/
noncomputable def lfBdRow (A : LfArgs) (i c : ℕ) : ℝ :=
  dotp A.dk (addBias (paddedT A.T A.q) A.vB i) (A.posP c)

/-- Row `i` of `d_mask`: the banded product of an all-ones tensor with the
float key-padding mask (hidden size 1), reusing the chunk machinery. -/
noncomputable def lfDmaskRow (A : LfArgs) (i j : ℕ) : WithBot ℝ :=
  bandQK 1 (lfW A) (lfN A.T (lfW A)) onesF (floatMaskF A.T A.pm) 0 A.un2 i j

/-- The final banded scores: bd added into ac, division by `sqrt d_k`,
out-of-band columns overwritten with `-10000`, then `d_mask` added. -/
noncomputable def lfScores (A : LfArgs) (i j : ℕ) : WithBot ℝ :=
  bandCombineRow A.leftCtx A.rightCtx A.sdk (lfAcRow A i)
    (fun c => ((lfBdRow A i c : ℝ) : WithBot ℝ)) j + lfDmaskRow A i j

/-- `exp` extended to `WithBot ℝ` with `exp (-inf) = 0`, the value used by
`torch.softmax` on `-inf` entries. -/
noncomputable def expB (s : WithBot ℝ) : ℝ := WithBot.unbot' 0 (WithBot.map Real.exp s)

noncomputable def lfZ (A : LfArgs) (i : ℕ) : ℝ :=
  ∑ j in Finset.range (2 * lfW A + 1), expB (lfScores A i j)

/-- The attention weights: softmax over the band axis followed by
`masked_fill(mask, 0.0)`, which zeroes the rows of padded query positions. -/
noncomputable def lfAttn (A : LfArgs) (i j : ℕ) : ℝ :=
  if maskPadded A.T A.pm i then 0 else expB (lfScores A i j) / lfZ A i

/-- `v` padded with `w` frames of `-1` on each side of the (already
zero-padded) time axis, as in `sliding_chunks_matmul_pv`. -/
def pvPadded {K : Type} [LinearOrderedField K] (T w : ℕ) (v : ℕ → ℕ → K) : ℕ → ℕ → K :=
  fun t d => if t < w then -1 else if t < w + lfN T w then paddedT T v (t - w) d else -1

/-- One entry of `_skew2 (chunk_prob)`: entry `(x, z)` of the `(w, 3w)`
result reads flat element `x*(3w+1) + z` of the row-padded `(w, 3w+2)`
block; `chunk_prob c r col` is `prob (c*w + r) col`. -/
noncomputable def lfSkewProb (A : LfArgs) (c x z : ℕ) : ℝ :=
  if (x * (3 * lfW A + 1) + z) % (3 * lfW A + 2) < 2 * lfW A + 1 then
    lfAttn A (c * lfW A + (x * (3 * lfW A + 1) + z) / (3 * lfW A + 2))
      ((x * (3 * lfW A + 1) + z) % (3 * lfW A + 2))
  else 0

/-- The per-head output of the banded forward at (unpadded) time `i` and
head dimension `d`: the `einsum` of the skewed probabilities against the
value chunks of width `3w` (chunk `c = i / w` starts at `c*w` in the
`pvPadded` time axis), reassembled. -/
noncomputable def lfBandedOut (A : LfArgs) (i d : ℕ) : ℝ :=
  ∑ z in Finset.range (3 * lfW A),
    lfSkewProb A (i / lfW A) (i % lfW A) z *
      pvPadded A.T (lfW A) A.v (i / lfW A * lfW A + z) d

/-! ### Evaluation of `diagonal_chunk_attn` entries -/

theorem dcaM_low {K : Type} [LinearOrderedField K] (dk w : ℕ) (q k : ℕ → ℕ → K)
    (padv : K) (c X Y : ℕ) (hw : 0 < w) (hXY : X + Y < 2 * w) :
    dcaM dk w q k padv c X Y = chunkAttnM dk w q k c X (X + Y) := by
  have hm : X * (2 * w + 1) + Y = (X + Y) + X * (2 * w) := by ring
  rw [dcaM, hm, Nat.add_mul_div_right _ _ (by omega : 0 < 2 * w),
    Nat.add_mul_mod_self_right, Nat.div_eq_of_lt hXY, Nat.mod_eq_of_lt hXY, Nat.zero_add]
  rw [if_pos (by omega)]

theorem dcaM_high {K : Type} [LinearOrderedField K] (dk w : ℕ) (q k : ℕ → ℕ → K)
    (padv : K) (c X Y : ℕ) (hw : 0 < w) (h1 : 2 * w ≤ X + Y) (h2 : X + Y < 4 * w)
    (h3 : X + 1 < 2 * w) :
    dcaM dk w q k padv c X Y = chunkAttnM dk w q k c (X + 1) (X + Y - 2 * w) := by
  have e1 : X * (2 * w + 1) + Y = (X + Y) + X * (2 * w) := by ring
  have e2 : (X + 1) * (2 * w) = X * (2 * w) + 2 * w := by ring
  have hm : X * (2 * w + 1) + Y = (X + Y - 2 * w) + (X + 1) * (2 * w) := by omega
  have hr : X + Y - 2 * w < 2 * w := by omega
  rw [dcaM, hm, Nat.add_mul_div_right _ _ (by omega : 0 < 2 * w),
    Nat.add_mul_mod_self_right, Nat.div_eq_of_lt hr, Nat.mod_eq_of_lt hr, Nat.zero_add]
  rw [if_pos h3]

/-- Evaluation of the assembled, invalid-location-masked banded `QKᵗ`: for a
sequence length `n` that is a positive multiple of `2w` and any band column
`j ≤ 2w`, entry `(i, j)` is `-inf` exactly when the referenced key position
`i + j - w` falls outside `[0, n)`, and otherwise equals the dot product of
query row `i` with key row `i + j - w`. -/
theorem bandQK_eval {K : Type} [LinearOrderedField K] (dk w n : ℕ) (q k : ℕ → ℕ → K)
    (padv : K) (uninit : ℕ → ℕ → K) (i j : ℕ) (hw : 0 < w) (hmod : n % (2 * w) = 0)
    (hn : 2 * w ≤ n) (hi : i < n) (hj : j ≤ 2 * w) :
    bandQK dk w n q k padv uninit i j =
      if i + j < w ∨ n + w ≤ i + j then (⊥ : WithBot K)
      else ((dotp dk (q i) (k (i + j - w)) : K) : WithBot K) := by
  rw [bandQK]
  by_cases hv : i + j < w ∨ n + w ≤ i + j
  · rw [if_pos hv, if_pos hv]
  · rw [if_neg hv, if_neg hv]
    push_neg at hv
    obtain ⟨hv1, hv2⟩ := hv
    congr 1
    have hwn : w ∣ n := dvd_trans ⟨2, by ring⟩ (Nat.dvd_of_mod_eq_zero hmod)
    have hnw : w * (n / w) = n := Nat.mul_div_cancel' hwn
    have h2m : 2 ≤ n / w := (Nat.le_div_iff_mul_le hw).mpr (by omega)
    have hx : i % w < w := Nat.mod_lt _ hw
    have hiw : w * (i / w) + i % w = i := Nat.div_add_mod i w
    have hclt : i / w < n / w := by
      refine (Nat.div_lt_iff_lt_mul hw).mpr ?_
      rw [Nat.div_mul_cancel hwn]
      exact hi
    rw [bandQKraw]
    by_cases hjw : w ≤ j
    · rw [if_pos hjw]
      by_cases hlast : i / w = n / w - 1
      · rw [if_pos hlast]
        have hbr1 : w * (n / w - 1) + w = w * (n / w) := by
          have e : n / w - 1 + 1 = n / w := by omega
          calc w * (n / w - 1) + w = w * (n / w - 1 + 1) := by ring
          _ = w * (n / w) := by rw [e]
        have hieq : w * (n / w - 1) + i % w = i := by rw [← hlast]; exact hiw
        have hxj : i % w + j < 2 * w := by omega
        rw [dcaM_low dk w q k padv _ _ _ hw (by omega : (w + i % w) + (j - w) < 2 * w)]
        simp only [chunkAttnM]
        have hbr2 : (n / w - 1 - 1) * w + w = (n / w - 1) * w := by
          have e : n / w - 1 - 1 + 1 = n / w - 1 := by omega
          calc (n / w - 1 - 1) * w + w = (n / w - 1 - 1 + 1) * w := by ring
          _ = (n / w - 1) * w := by rw [e]
        have hbr3 : (n / w - 1) * w = w * (n / w - 1) := by ring
        have hrow : (n / w - 1 - 1) * w + (w + i % w) = i := by omega
        have hcol : (n / w - 1 - 1) * w + (w + i % w + (j - w)) = i + j - w := by omega
        rw [hrow, hcol]
      · rw [if_neg hlast]
        have hcle : i / w + 2 ≤ n / w := by omega
        rw [dcaM_low dk w q k padv _ _ _ hw (by omega : i % w + (j - w) < 2 * w)]
        simp only [chunkAttnM]
        have hbr : i / w * w = w * (i / w) := by ring
        have hrow : i / w * w + i % w = i := by omega
        have hcol : i / w * w + (i % w + (j - w)) = i + j - w := by omega
        rw [hrow, hcol]
    · rw [if_neg hjw]
      by_cases hc0 : i / w = 0
      · rw [if_pos hc0]
        have hieq : i % w = i := by
          have := hiw
          rw [hc0, Nat.mul_zero, Nat.zero_add] at this
          exact this
        rw [if_pos (by omega : 1 ≤ i % w ∧ 1 ≤ j)]
        rw [dcaM_high dk w q k padv _ _ _ hw (by omega : 2 * w ≤ (i % w - 1) + (w + 1 + j))
          (by omega : (i % w - 1) + (w + 1 + j) < 4 * w) (by omega : (i % w - 1) + 1 < 2 * w)]
        simp only [chunkAttnM]
        have hrow : 0 * w + (i % w - 1 + 1) = i := by omega
        have hcol : 0 * w + (i % w - 1 + (w + 1 + j) - 2 * w) = i + j - w := by omega
        rw [hrow, hcol]
      · rw [if_neg hc0]
        have hc1 : 1 ≤ i / w := Nat.one_le_iff_ne_zero.mpr hc0
        rw [dcaM_high dk w q k padv _ _ _ hw
          (by omega : 2 * w ≤ (w - 1 + i % w) + (w + 1 + j))
          (by omega : (w - 1 + i % w) + (w + 1 + j) < 4 * w)
          (by omega : (w - 1 + i % w) + 1 < 2 * w)]
        simp only [chunkAttnM]
        have hbr1 : (i / w - 1) * w + w = i / w * w := by
          have e : i / w - 1 + 1 = i / w := by omega
          calc (i / w - 1) * w + w = (i / w - 1 + 1) * w := by ring
          _ = i / w * w := by rw [e]
        have hbr2 : i / w * w = w * (i / w) := by ring
        have hrow : (i / w - 1) * w + (w - 1 + i % w + 1) = i := by omega
        have hcol : (i / w - 1) * w + (w - 1 + i % w + (w + 1 + j) - 2 * w) = i + j - w := by omega
        rw [hrow, hcol]

/-! ### Evaluation lemmas for the remaining pipeline stages -/

theorem padLen_zero_of_mod (T w : ℕ) (hmod : T % (2 * w) = 0) : padLen T w = 0 := by
  rw [padLen, hmod, Nat.sub_zero, Nat.mod_self]

theorem expB_bot : expB ⊥ = 0 := rfl

theorem expB_coe (x : ℝ) : expB ((x : ℝ) : WithBot ℝ) = Real.exp x := rfl

theorem bandCombineRow_symm_eval {K : Type} [LinearOrderedField K] (leftCtx : ℕ) (sdk : K)
    (ac bd : ℕ → WithBot K) (j : ℕ) (hj : j ≤ 2 * leftCtx) :
    bandCombineRow leftCtx leftCtx sdk ac bd j = WithBot.map (fun a => a / sdk) (ac j + bd j) := by
  rw [bandCombineRow, if_neg (by omega)]
  simp only [max_self]
  rcases lt_or_ge j leftCtx with h | h
  · rw [if_pos h, if_neg (by omega), add_zero]
  · rw [if_neg (by omega), if_pos (by omega)]
    have he : leftCtx + (j - (2 * leftCtx - leftCtx)) = j := by omega
    rw [he, add_zero]

/-- Evaluation of `_skew2` on the probability chunks: entry `(x, z)` of the
`(w, 3w)` result is `chunk_prob c x (z - x)` when `x ≤ z ≤ x + 2w` and the
padding value `0` otherwise. -/
theorem lfSkewProb_eval (A : LfArgs) (c x z : ℕ) (hw : 0 < lfW A) (hx : x < lfW A)
    (hz : z < 3 * lfW A) :
    lfSkewProb A c x z =
      if x ≤ z ∧ z ≤ x + 2 * lfW A then lfAttn A (c * lfW A + x) (z - x) else 0 := by
  by_cases h : x ≤ z ∧ z ≤ x + 2 * lfW A
  · rw [if_pos h]
    obtain ⟨h1, h2⟩ := h
    have e : x * (3 * lfW A + 2) = x * (3 * lfW A + 1) + x := by ring
    have hm : x * (3 * lfW A + 1) + z = (z - x) + x * (3 * lfW A + 2) := by omega
    have hzx : z - x < 3 * lfW A + 2 := by omega
    rw [lfSkewProb, hm, Nat.add_mul_div_right _ _ (by omega : 0 < 3 * lfW A + 2),
      Nat.add_mul_mod_self_right, Nat.div_eq_of_lt hzx, Nat.mod_eq_of_lt hzx, Nat.zero_add]
    rw [if_pos (by omega : z - x < 2 * lfW A + 1)]
  · rw [if_neg h]
    rw [lfSkewProb]
    push_neg at h
    rcases Nat.lt_or_ge z x with hlt | hge
    · have e : x * (3 * lfW A + 2) = x * (3 * lfW A + 1) + x := by ring
      have e2 : (x - 1) * (3 * lfW A + 2) + (3 * lfW A + 2) = x * (3 * lfW A + 2) := by
        have e3 : x - 1 + 1 = x := by omega
        calc (x - 1) * (3 * lfW A + 2) + (3 * lfW A + 2)
            = (x - 1 + 1) * (3 * lfW A + 2) := by ring
        _ = x * (3 * lfW A + 2) := by rw [e3]
      have hm : x * (3 * lfW A + 1) + z =
          (3 * lfW A + 2 - (x - z)) + (x - 1) * (3 * lfW A + 2) := by omega
      have hr : 3 * lfW A + 2 - (x - z) < 3 * lfW A + 2 := by omega
      rw [hm, Nat.add_mul_mod_self_right, Nat.mod_eq_of_lt hr]
      rw [if_neg (by omega)]
    · have hgt : x + 2 * lfW A < z := h hge
      have e : x * (3 * lfW A + 2) = x * (3 * lfW A + 1) + x := by ring
      have hm : x * (3 * lfW A + 1) + z = (z - x) + x * (3 * lfW A + 2) := by omega
      have hzx : z - x < 3 * lfW A + 2 := by omega
      rw [hm, Nat.add_mul_mod_self_right, Nat.mod_eq_of_lt hzx]
      rw [if_neg (by omega)]

/-- The banded PV combination reduces to the band-row dot product: the output
at time `i` is the sum over the band of the attention weight times the
(`-1`/zero padded) value at time `i + j` of the `pvPadded` axis. -/
theorem lfBandedOut_row (A : LfArgs) (hw : 0 < lfW A) (i d : ℕ) :
    lfBandedOut A i d =
      ∑ j in Finset.range (2 * lfW A + 1),
        lfAttn A i j * pvPadded A.T (lfW A) A.v (i + j) d := by
  have hx : i % lfW A < lfW A := Nat.mod_lt _ hw
  have hiw : lfW A * (i / lfW A) + i % lfW A = i := Nat.div_add_mod i (lfW A)
  have hbr : i / lfW A * lfW A = lfW A * (i / lfW A) := by ring
  rw [lfBandedOut]
  have hstep : ∀ z ∈ Finset.range (3 * lfW A),
      lfSkewProb A (i / lfW A) (i % lfW A) z *
          pvPadded A.T (lfW A) A.v (i / lfW A * lfW A + z) d =
        if z ∈ Finset.Ico (i % lfW A) (i % lfW A + 2 * lfW A + 1) then
          lfAttn A i (z - i % lfW A) *
            pvPadded A.T (lfW A) A.v (i / lfW A * lfW A + z) d
        else 0 := by
    intro z hz
    rw [Finset.mem_range] at hz
    rw [lfSkewProb_eval A (i / lfW A) (i % lfW A) z hw hx hz]
    have hieq : i / lfW A * lfW A + i % lfW A = i := by omega
    rw [hieq]
    by_cases hmem : i % lfW A ≤ z ∧ z ≤ i % lfW A + 2 * lfW A
    · rw [if_pos hmem, if_pos (by rw [Finset.mem_Ico]; omega)]
    · rw [if_neg hmem, if_neg (by rw [Finset.mem_Ico]; omega), zero_mul]
  rw [Finset.sum_congr rfl hstep, Finset.sum_ite_mem]
  have hsub : Finset.range (3 * lfW A) ∩
      Finset.Ico (i % lfW A) (i % lfW A + 2 * lfW A + 1) =
      Finset.Ico (i % lfW A) (i % lfW A + 2 * lfW A + 1) := by
    refine Finset.inter_eq_right.mpr ?_
    intro z hz
    rw [Finset.mem_Ico] at hz
    rw [Finset.mem_range]
    omega
  rw [hsub, Finset.sum_Ico_eq_sum_range]
  have hlen : i % lfW A + 2 * lfW A + 1 - i % lfW A = 2 * lfW A + 1 := by omega
  rw [hlen]
  refine Finset.sum_congr rfl ?_
  intro t ht
  have h1 : i % lfW A + t - i % lfW A = t := by omega
  have h2 : i / lfW A * lfW A + (i % lfW A + t) = i + t := by omega
  rw [h1, h2]

/-! ### The dense band-masked reference

Reference dense computation following the spec (section 4.2 with the explicit
index remapping, masked exactly to the band of relative offsets
`[-left, +right]`): per head, the score of query `i` against key `j` is the
content-content term plus the content-position term read directly at offset
`j - i` in the offset-indexed positional table, scaled by `1 / sqrt d_k`; the
softmax is taken over exactly the keys of the band intersected with `[0, T)`
(the float-limit behavior of the `-10000` masking constant, whose exponential
underflows to exactly `0`), and the output aggregates the values over the
band. -/

noncomputable def denseBandScores (dk : ℕ) (q k : ℕ → ℕ → ℝ) (posOfP : ℤ → ℕ → ℝ)
    (uB vB : ℕ → ℝ) (sdk : ℝ) (i j : ℕ) : ℝ :=
  (dotp dk (fun d => q i d + uB d) (k j) +
    dotp dk (fun d => q i d + vB d) (posOfP ((j : ℤ) - (i : ℤ)))) / sdk

def denseBandSet (leftCtx rightCtx T i : ℕ) : Finset ℕ :=
  (Finset.range T).filter
    (fun j => (i : ℤ) - (leftCtx : ℤ) ≤ (j : ℤ) ∧ (j : ℤ) ≤ (i : ℤ) + (rightCtx : ℤ))

noncomputable def denseBandedOut (leftCtx rightCtx dk T : ℕ) (q k v : ℕ → ℕ → ℝ)
    (posOfP : ℤ → ℕ → ℝ) (uB vB : ℕ → ℝ) (sdk : ℝ) (i d : ℕ) : ℝ :=
  ∑ j in denseBandSet leftCtx rightCtx T i,
    (Real.exp (denseBandScores dk q k posOfP uB vB sdk i j) /
      ∑ t in denseBandSet leftCtx rightCtx T i,
        Real.exp (denseBandScores dk q k posOfP uB vB sdk i t)) * v j d

/-- Reindexing of a sum over the valid band columns of query row `i` by the
key position `i + j - w`. -/
theorem band_reindex (w T i : ℕ) (_hi : i < T) (f : ℕ → ℝ) :
    ∑ j in (Finset.range (2 * w + 1)).filter (fun j => w ≤ i + j ∧ i + j < T + w),
        f (i + j - w) =
      ∑ j in denseBandSet w w T i, f j := by
  rw [denseBandSet]
  refine Finset.sum_nbij' (i := fun j => i + j - w) (j := fun j => j + w - i) ?_ ?_ ?_ ?_ ?_
  · intro a ha
    simp only [Finset.mem_filter, Finset.mem_range] at ha ⊢
    omega
  · intro b hb
    simp only [Finset.mem_filter, Finset.mem_range] at hb ⊢
    omega
  · intro a ha
    simp only [Finset.mem_filter, Finset.mem_range] at ha
    dsimp only
    omega
  · intro b hb
    simp only [Finset.mem_filter, Finset.mem_range] at hb
    dsimp only
    omega
  · intro a ha
    rfl

/-- Full evaluation of the banded score row in the symmetric-context,
no-padding configuration: valid entries carry the combined content-content
plus content-position score divided by `sqrt d_k` (the key-padding penalty
contributes `0`), invalid entries are `-inf`. -/
theorem lfScores_eval (A : LfArgs) (hlr : A.leftCtx = A.rightCtx) (hw : 0 < A.leftCtx)
    (hT : 0 < A.T) (hmod : A.T % (2 * A.leftCtx) = 0) (hpm : ∀ t, A.pm t = false)
    (i j : ℕ) (hi : i < A.T) (hj : j ≤ 2 * A.leftCtx) :
    lfScores A i j =
      if A.leftCtx ≤ i + j ∧ i + j < A.T + A.leftCtx then
        (((dotp A.dk (fun d => A.q i d + A.uB d) (A.k (i + j - A.leftCtx)) +
            lfBdRow A i j) / A.sdk : ℝ) : WithBot ℝ)
      else (⊥ : WithBot ℝ) := by
  have hW : lfW A = A.leftCtx := by rw [lfW, ← hlr, max_self]
  have hT2 : 2 * A.leftCtx ≤ A.T := Nat.le_of_dvd hT (Nat.dvd_of_mod_eq_zero hmod)
  have hN : lfN A.T (lfW A) = A.T := by
    rw [hW, lfN, padLen_zero_of_mod _ _ hmod, Nat.add_zero]
  have hac : lfAcRow A i j =
      if i + j < A.leftCtx ∨ A.T + A.leftCtx ≤ i + j then (⊥ : WithBot ℝ)
      else ((dotp A.dk (addBias (paddedT A.T A.q) A.uB i)
        (paddedT A.T A.k (i + j - A.leftCtx)) : ℝ) : WithBot ℝ) := by
    rw [lfAcRow, hN, hW]
    exact bandQK_eval A.dk A.leftCtx A.T _ _ 0 A.un1 i j hw hmod hT2 hi hj
  have hdm : lfDmaskRow A i j =
      if i + j < A.leftCtx ∨ A.T + A.leftCtx ≤ i + j then (⊥ : WithBot ℝ)
      else ((0 : ℝ) : WithBot ℝ) := by
    rw [lfDmaskRow, hN, hW]
    rw [bandQK_eval 1 A.leftCtx A.T _ _ 0 A.un2 i j hw hmod hT2 hi hj]
    by_cases hv : i + j < A.leftCtx ∨ A.T + A.leftCtx ≤ i + j
    · rw [if_pos hv, if_pos hv]
    · rw [if_neg hv, if_neg hv]
      push_neg at hv
      congr 1
      rw [dotp, Finset.sum_range_one]
      simp only [onesF, floatMaskF, maskPadded]
      have hlt : i + j - A.leftCtx < A.T := by omega
      simp [hlt, hpm]
  rw [lfScores]
  rw [show bandCombineRow A.leftCtx A.rightCtx A.sdk (lfAcRow A i)
      (fun c => ((lfBdRow A i c : ℝ) : WithBot ℝ)) j =
    WithBot.map (fun a => a / A.sdk) (lfAcRow A i j + ((lfBdRow A i j : ℝ) : WithBot ℝ)) from by
      rw [← hlr]
      exact bandCombineRow_symm_eval A.leftCtx A.sdk _ _ j hj]
  rw [hac, hdm]
  by_cases hv : i + j < A.leftCtx ∨ A.T + A.leftCtx ≤ i + j
  · rw [if_pos hv, if_pos hv, if_neg (by omega)]
    rw [WithBot.bot_add, WithBot.map_bot, WithBot.bot_add]
  · rw [if_neg hv, if_neg hv, if_pos (by omega)]
    push_neg at hv
    rw [← WithBot.coe_add, WithBot.map_coe, ← WithBot.coe_add]
    rw [WithBot.coe_inj]
    have hqu : addBias (paddedT A.T A.q) A.uB i = fun d => A.q i d + A.uB d := by
      funext d
      rw [addBias, paddedT, if_pos hi]
    have hk : paddedT A.T A.k (i + j - A.leftCtx) = A.k (i + j - A.leftCtx) := by
      funext d
      rw [paddedT, if_pos (by omega : i + j - A.leftCtx < A.T)]
    rw [hqu, hk, add_zero]

/-- Core equivalence, per head: in the symmetric-context (`left = right = w`),
no-padding (`T` a multiple of `2w`, all-visible key mask) configuration, the
banded output equals the dense band-masked reference. -/
theorem lfBandedOut_eq_denseBand (A : LfArgs) (posOfP : ℤ → ℕ → ℝ)
    (hlr : A.leftCtx = A.rightCtx) (hw : 0 < A.leftCtx) (hT : 0 < A.T)
    (hmod : A.T % (2 * A.leftCtx) = 0) (hpm : ∀ t, A.pm t = false)
    (hpos : ∀ c dd, c ≤ 2 * A.leftCtx → A.posP c dd = posOfP ((c : ℤ) - (A.leftCtx : ℤ)) dd)
    (i d : ℕ) (hi : i < A.T) :
    lfBandedOut A i d =
      denseBandedOut A.leftCtx A.rightCtx A.dk A.T A.q A.k A.v posOfP A.uB A.vB A.sdk i d := by
  have hW : lfW A = A.leftCtx := by rw [lfW, ← hlr, max_self]
  have hT2 : 2 * A.leftCtx ≤ A.T := Nat.le_of_dvd hT (Nat.dvd_of_mod_eq_zero hmod)
  have hN : lfN A.T A.leftCtx = A.T := by
    rw [lfN, padLen_zero_of_mod _ _ hmod, Nat.add_zero]
  have hmask : maskPadded A.T A.pm i = false := by rw [maskPadded, if_pos hi, hpm]
  have hsval : ∀ j, A.leftCtx ≤ i + j → i + j < A.T + A.leftCtx → j ≤ 2 * A.leftCtx →
      (dotp A.dk (fun dd => A.q i dd + A.uB dd) (A.k (i + j - A.leftCtx)) + lfBdRow A i j) /
          A.sdk =
        denseBandScores A.dk A.q A.k posOfP A.uB A.vB A.sdk i (i + j - A.leftCtx) := by
    intro j h1 h2 hj
    rw [denseBandScores, lfBdRow]
    have hqv : addBias (paddedT A.T A.q) A.vB i = fun dd => A.q i dd + A.vB dd := by
      funext dd
      rw [addBias, paddedT, if_pos hi]
    have hposf : A.posP j = posOfP ((j : ℤ) - (A.leftCtx : ℤ)) :=
      funext (fun dd => hpos j dd hj)
    have harg : ((i + j - A.leftCtx : ℕ) : ℤ) - (i : ℤ) = (j : ℤ) - (A.leftCtx : ℤ) := by omega
    rw [hqv, hposf, ← harg]
  have hZ : lfZ A i =
      ∑ t in denseBandSet A.leftCtx A.leftCtx A.T i,
        Real.exp (denseBandScores A.dk A.q A.k posOfP A.uB A.vB A.sdk i t) := by
    rw [lfZ, hW]
    have hterm : ∀ j ∈ Finset.range (2 * A.leftCtx + 1),
        expB (lfScores A i j) =
          if A.leftCtx ≤ i + j ∧ i + j < A.T + A.leftCtx then
            Real.exp
              (denseBandScores A.dk A.q A.k posOfP A.uB A.vB A.sdk i (i + j - A.leftCtx))
          else 0 := by
      intro j hjr
      rw [Finset.mem_range] at hjr
      rw [lfScores_eval A hlr hw hT hmod hpm i j hi (by omega)]
      by_cases hv : A.leftCtx ≤ i + j ∧ i + j < A.T + A.leftCtx
      · rw [if_pos hv, if_pos hv, expB_coe, hsval j hv.1 hv.2 (by omega)]
      · rw [if_neg hv, if_neg hv, expB_bot]
    rw [Finset.sum_congr rfl hterm, ← Finset.sum_filter]
    exact band_reindex A.leftCtx A.T i hi
      (fun t => Real.exp (denseBandScores A.dk A.q A.k posOfP A.uB A.vB A.sdk i t))
  rw [lfBandedOut_row A (by rw [hW]; exact hw) i d, hW]
  have hterm2 : ∀ j ∈ Finset.range (2 * A.leftCtx + 1),
      lfAttn A i j * pvPadded A.T A.leftCtx A.v (i + j) d =
        if A.leftCtx ≤ i + j ∧ i + j < A.T + A.leftCtx then
          Real.exp
              (denseBandScores A.dk A.q A.k posOfP A.uB A.vB A.sdk i (i + j - A.leftCtx)) /
              (∑ t in denseBandSet A.leftCtx A.leftCtx A.T i,
                Real.exp (denseBandScores A.dk A.q A.k posOfP A.uB A.vB A.sdk i t)) *
            A.v (i + j - A.leftCtx) d
        else 0 := by
    intro j hjr
    rw [Finset.mem_range] at hjr
    rw [lfAttn, hmask]
    rw [if_neg (by simp)]
    rw [hZ, lfScores_eval A hlr hw hT hmod hpm i j hi (by omega)]
    by_cases hv : A.leftCtx ≤ i + j ∧ i + j < A.T + A.leftCtx
    · rw [if_pos hv, if_pos hv, expB_coe, hsval j hv.1 hv.2 (by omega)]
      congr 1
      have hc2 : i + j < A.leftCtx + lfN A.T A.leftCtx := by rw [hN]; omega
      rw [pvPadded, if_neg (by omega), if_pos hc2, paddedT,
        if_pos (by omega : i + j - A.leftCtx < A.T)]
    · rw [if_neg hv, if_neg hv, expB_bot, zero_div, zero_mul]
  rw [Finset.sum_congr rfl hterm2, ← Finset.sum_filter]
  rw [denseBandedOut, ← hlr]
  exact band_reindex A.leftCtx A.T i hi
    (fun t =>
      Real.exp (denseBandScores A.dk A.q A.k posOfP A.uB A.vB A.sdk i t) /
          (∑ s in denseBandSet A.leftCtx A.leftCtx A.T i,
            Real.exp (denseBandScores A.dk A.q A.k posOfP A.uB A.vB A.sdk i s)) *
        A.v t d)

/-! ### Full forward with projections (`forward_qkv`, `linear_pos`,
`linear_out`; `nn.Linear` is `y = x Wᵗ + b`)

`projHead` is `forward_qkv` followed by the head split: head `hd` of the
projection of `inp` reads output features `hd*dk .. hd*dk + dk - 1`.  The
banded forward `lfForwardModel` runs the per-head banded core on every head,
concatenates the heads back into `feature = h * dk` and applies the output
projection; `denseForwardModel` is the dense band-masked reference with the
identical projections. -/

noncomputable def linApply (nin : ℕ) (W : ℕ → ℕ → ℝ) (b : ℕ → ℝ) (x : ℕ → ℝ) (o : ℕ) : ℝ :=
  (∑ f in Finset.range nin, W o f * x f) + b o

noncomputable def projHead (nfeat dk hd : ℕ) (W : ℕ → ℕ → ℝ) (b : ℕ → ℝ)
    (inp : ℕ → ℕ → ℝ) : ℕ → ℕ → ℝ :=
  fun t d => linApply nfeat W b (inp t) (hd * dk + d)

structure MhaParams where
  h : ℕ
  dk : ℕ
  Wq : ℕ → ℕ → ℝ
  bq : ℕ → ℝ
  Wk : ℕ → ℕ → ℝ
  bk : ℕ → ℝ
  Wv : ℕ → ℕ → ℝ
  bv : ℕ → ℝ
  Wpos : ℕ → ℕ → ℝ
  Wout : ℕ → ℕ → ℝ
  bout : ℕ → ℝ
  uB : ℕ → ℕ → ℝ
  vB : ℕ → ℕ → ℝ

noncomputable def lfHeadArgs (P : MhaParams) (leftCtx rightCtx T : ℕ) (pm : ℕ → Bool)
    (posEmb : ℕ → ℕ → ℝ) (un1 un2 : ℕ → ℕ → ℕ → ℝ) (query key value : ℕ → ℕ → ℝ)
    (hd : ℕ) : LfArgs :=
  { leftCtx := leftCtx
    rightCtx := rightCtx
    dk := P.dk
    T := T
    q := projHead (P.h * P.dk) P.dk hd P.Wq P.bq query
    k := projHead (P.h * P.dk) P.dk hd P.Wk P.bk key
    v := projHead (P.h * P.dk) P.dk hd P.Wv P.bv value
    posP := fun r d => linApply (P.h * P.dk) P.Wpos (fun _ => 0) (posEmb r) (hd * P.dk + d)
    uB := P.uB hd
    vB := P.vB hd
    sdk := Real.sqrt P.dk
    pm := pm
    un1 := un1 hd
    un2 := un2 hd }

noncomputable def lfForwardModel (P : MhaParams) (leftCtx rightCtx T : ℕ) (pm : ℕ → Bool)
    (posEmb : ℕ → ℕ → ℝ) (un1 un2 : ℕ → ℕ → ℕ → ℝ) (query key value : ℕ → ℕ → ℝ)
    (t o : ℕ) : ℝ :=
  linApply (P.h * P.dk) P.Wout P.bout
    (fun f =>
      lfBandedOut (lfHeadArgs P leftCtx rightCtx T pm posEmb un1 un2 query key value (f / P.dk))
        t (f % P.dk)) o

noncomputable def denseForwardModel (P : MhaParams) (leftCtx rightCtx T : ℕ)
    (posOf : ℤ → ℕ → ℝ) (query key value : ℕ → ℕ → ℝ) (t o : ℕ) : ℝ :=
  linApply (P.h * P.dk) P.Wout P.bout
    (fun f =>
      denseBandedOut leftCtx rightCtx P.dk T
        (projHead (P.h * P.dk) P.dk (f / P.dk) P.Wq P.bq query)
        (projHead (P.h * P.dk) P.dk (f / P.dk) P.Wk P.bk key)
        (projHead (P.h * P.dk) P.dk (f / P.dk) P.Wv P.bv value)
        (fun o' d => linApply (P.h * P.dk) P.Wpos (fun _ => 0) (posOf o') (f / P.dk * P.dk + d))
        (P.uB (f / P.dk)) (P.vB (f / P.dk)) (Real.sqrt P.dk) t (f % P.dk)) o

/-- C1 (amended): for a symmetric window configuration `left = right = w > 0`
and a sequence length `T` that is a positive multiple of `2w` with an
all-false key-padding mask, the banded attention forward of
`RelPositionMultiHeadAttentionLongformer` produces, at every output position
`t < T`, the same output as the dense full-attention computation (base engine
with relative bias) whose softmax is restricted exactly to the band of
relative offsets `[-left, +right]` around each query position (the
float-limit reading of "masked to the band": masked keys are excluded from
the normalizer, since `exp (-10000)` underflows to `0` in the float
arithmetic the spec describes), provided the local positional table `posEmb`
agrees row-by-row with the offset-indexed table `posOf` of the reference
(`posEmb r = posOf (r - left)`).  As originally stated the claim fails: for
`T` not a multiple of `2w` the zero-padded frames keep softmax weight
`exp (-10000) > 0` and perturb every weight of the row (see the
counterexample), and for `left ≠ right` the bias halves are added at
misaligned band columns (see C6). -/
theorem banded_forward_dense_equiv (P : MhaParams) (leftCtx rightCtx T : ℕ) (pm : ℕ → Bool)
    (posEmb : ℕ → ℕ → ℝ) (un1 un2 : ℕ → ℕ → ℕ → ℝ) (posOf : ℤ → ℕ → ℝ)
    (query key value : ℕ → ℕ → ℝ) (hlr : leftCtx = rightCtx) (hw : 0 < leftCtx)
    (hT : 0 < T) (hmod : T % (2 * leftCtx) = 0) (hpm : ∀ t, pm t = false)
    (hpos : ∀ r ff, r ≤ 2 * leftCtx → posEmb r ff = posOf ((r : ℤ) - (leftCtx : ℤ)) ff)
    (t o : ℕ) (ht : t < T) :
    lfForwardModel P leftCtx rightCtx T pm posEmb un1 un2 query key value t o =
      denseForwardModel P leftCtx rightCtx T posOf query key value t o := by
  rw [lfForwardModel, denseForwardModel, linApply, linApply]
  congr 1
  refine Finset.sum_congr rfl ?_
  intro f hf
  congr 1
  have hposP : ∀ c dd, c ≤ 2 * leftCtx →
      (lfHeadArgs P leftCtx rightCtx T pm posEmb un1 un2 query key value (f / P.dk)).posP c dd =
        (fun o' d => linApply (P.h * P.dk) P.Wpos (fun _ => 0) (posOf o') (f / P.dk * P.dk + d))
          ((c : ℤ) - (leftCtx : ℤ)) dd := by
    intro c dd hc
    dsimp only [lfHeadArgs]
    have he : posEmb c = posOf ((c : ℤ) - (leftCtx : ℤ)) := funext fun ff => hpos c ff hc
    rw [he]
  exact lfBandedOut_eq_denseBand
    (lfHeadArgs P leftCtx rightCtx T pm posEmb un1 un2 query key value (f / P.dk))
    (fun o' d => linApply (P.h * P.dk) P.Wpos (fun _ => 0) (posOf o') (f / P.dk * P.dk + d))
    hlr hw hT hmod hpm hposP t (f % P.dk) ht

/-! ### Concrete instance for the C1 counterexample: one head, one feature,
identity projections, zero biases and zero positional table, `T = 1` with
window `left = right = 1` (so `T` is padded to `2`). -/

noncomputable def cexParams : MhaParams :=
  { h := 1
    dk := 1
    Wq := fun _ _ => 1
    bq := fun _ => 0
    Wk := fun _ _ => 1
    bk := fun _ => 0
    Wv := fun _ _ => 1
    bv := fun _ => 0
    Wpos := fun _ _ => 0
    Wout := fun _ _ => 1
    bout := fun _ => 0
    uB := fun _ _ => 0
    vB := fun _ _ => 0 }

noncomputable def cexArgs : LfArgs :=
  lfHeadArgs cexParams 1 1 1 (fun _ => false) (fun _ _ => 0) (fun _ _ _ => 0) (fun _ _ _ => 0)
    (fun _ _ => 1) (fun _ _ => 1) (fun _ _ => 1) 0

theorem cex_sdk : cexArgs.sdk = 1 := by
  simp [cexArgs, lfHeadArgs, cexParams]

theorem cex_bd (c : ℕ) : lfBdRow cexArgs 0 c = 0 := by
  simp [lfBdRow, dotp, addBias, paddedT, cexArgs, lfHeadArgs, projHead, linApply, cexParams]

theorem cex_ac0 : lfAcRow cexArgs 0 0 = (⊥ : WithBot ℝ) := by
  rw [lfAcRow, show lfN cexArgs.T (lfW cexArgs) = 2 from rfl, show lfW cexArgs = 1 from rfl]
  rw [bandQK_eval _ 1 2 _ _ 0 _ 0 0 one_pos (by norm_num) (by norm_num) (by norm_num)
    (by norm_num)]
  rw [if_pos (by norm_num)]

theorem cex_ac1 : lfAcRow cexArgs 0 1 = ((1 : ℝ) : WithBot ℝ) := by
  rw [lfAcRow, show lfN cexArgs.T (lfW cexArgs) = 2 from rfl, show lfW cexArgs = 1 from rfl]
  rw [bandQK_eval _ 1 2 _ _ 0 _ 0 1 one_pos (by norm_num) (by norm_num) (by norm_num)
    (by norm_num)]
  rw [if_neg (by norm_num), WithBot.coe_inj]
  simp [dotp, addBias, paddedT, cexArgs, lfHeadArgs, projHead, linApply, cexParams]

theorem cex_ac2 : lfAcRow cexArgs 0 2 = ((0 : ℝ) : WithBot ℝ) := by
  rw [lfAcRow, show lfN cexArgs.T (lfW cexArgs) = 2 from rfl, show lfW cexArgs = 1 from rfl]
  rw [bandQK_eval _ 1 2 _ _ 0 _ 0 2 one_pos (by norm_num) (by norm_num) (by norm_num)
    (by norm_num)]
  rw [if_neg (by norm_num), WithBot.coe_inj]
  simp [dotp, addBias, paddedT, cexArgs, lfHeadArgs, projHead, linApply, cexParams]

theorem cex_dm0 : lfDmaskRow cexArgs 0 0 = (⊥ : WithBot ℝ) := by
  rw [lfDmaskRow, show lfN cexArgs.T (lfW cexArgs) = 2 from rfl, show lfW cexArgs = 1 from rfl]
  rw [bandQK_eval 1 1 2 _ _ 0 _ 0 0 one_pos (by norm_num) (by norm_num) (by norm_num)
    (by norm_num)]
  rw [if_pos (by norm_num)]

theorem cex_dm1 : lfDmaskRow cexArgs 0 1 = ((0 : ℝ) : WithBot ℝ) := by
  rw [lfDmaskRow, show lfN cexArgs.T (lfW cexArgs) = 2 from rfl, show lfW cexArgs = 1 from rfl]
  rw [bandQK_eval 1 1 2 _ _ 0 _ 0 1 one_pos (by norm_num) (by norm_num) (by norm_num)
    (by norm_num)]
  rw [if_neg (by norm_num), WithBot.coe_inj]
  simp [dotp, onesF, floatMaskF, maskPadded, cexArgs, lfHeadArgs, cexParams]

theorem cex_dm2 : lfDmaskRow cexArgs 0 2 = ((-10000 : ℝ) : WithBot ℝ) := by
  rw [lfDmaskRow, show lfN cexArgs.T (lfW cexArgs) = 2 from rfl, show lfW cexArgs = 1 from rfl]
  rw [bandQK_eval 1 1 2 _ _ 0 _ 0 2 one_pos (by norm_num) (by norm_num) (by norm_num)
    (by norm_num)]
  rw [if_neg (by norm_num), WithBot.coe_inj]
  simp [dotp, onesF, floatMaskF, maskPadded, cexArgs, lfHeadArgs, cexParams]

theorem cex_sc0 : lfScores cexArgs 0 0 = (⊥ : WithBot ℝ) := by
  rw [lfScores, show cexArgs.leftCtx = 1 from rfl, show cexArgs.rightCtx = 1 from rfl]
  rw [bandCombineRow_symm_eval 1 cexArgs.sdk _ _ 0 (by norm_num)]
  simp only [cex_ac0, cex_dm0]
  rw [WithBot.bot_add, WithBot.map_bot, WithBot.bot_add]

theorem cex_sc1 : lfScores cexArgs 0 1 = ((1 : ℝ) : WithBot ℝ) := by
  rw [lfScores, show cexArgs.leftCtx = 1 from rfl, show cexArgs.rightCtx = 1 from rfl]
  rw [bandCombineRow_symm_eval 1 cexArgs.sdk _ _ 1 (by norm_num)]
  simp only [cex_ac1, cex_dm1, cex_bd, cex_sdk]
  rw [← WithBot.coe_add, WithBot.map_coe, ← WithBot.coe_add, WithBot.coe_inj]
  norm_num

theorem cex_sc2 : lfScores cexArgs 0 2 = ((-10000 : ℝ) : WithBot ℝ) := by
  rw [lfScores, show cexArgs.leftCtx = 1 from rfl, show cexArgs.rightCtx = 1 from rfl]
  rw [bandCombineRow_symm_eval 1 cexArgs.sdk _ _ 2 (by norm_num)]
  simp only [cex_ac2, cex_dm2, cex_bd, cex_sdk]
  rw [← WithBot.coe_add, WithBot.map_coe, ← WithBot.coe_add, WithBot.coe_inj]
  norm_num

theorem cex_Z : lfZ cexArgs 0 = Real.exp 1 + Real.exp (-10000) := by
  rw [lfZ, show lfW cexArgs = 1 from rfl, show (2 * 1 + 1 : ℕ) = 3 from rfl]
  rw [Finset.sum_range_succ, Finset.sum_range_succ, Finset.sum_range_one]
  rw [cex_sc0, cex_sc1, cex_sc2, expB_bot, expB_coe, expB_coe]
  ring

theorem cex_attn (j : ℕ) :
    lfAttn cexArgs 0 j = expB (lfScores cexArgs 0 j) / (Real.exp 1 + Real.exp (-10000)) := by
  rw [lfAttn, if_neg (by decide), cex_Z]

theorem cex_pv0 : pvPadded cexArgs.T 1 cexArgs.v 0 0 = -1 := rfl

theorem cex_pv1 : pvPadded cexArgs.T 1 cexArgs.v 1 0 = 1 := by
  rw [pvPadded]
  rw [if_neg (by norm_num), if_pos (by norm_num [show lfN cexArgs.T 1 = 2 from rfl])]
  simp [paddedT, cexArgs, lfHeadArgs, projHead, linApply, cexParams]

theorem cex_pv2 : pvPadded cexArgs.T 1 cexArgs.v 2 0 = 0 := by
  rw [pvPadded]
  rw [if_neg (by norm_num), if_pos (by norm_num [show lfN cexArgs.T 1 = 2 from rfl])]
  simp [paddedT, cexArgs, lfHeadArgs]

theorem cex_out : lfBandedOut cexArgs 0 0 = Real.exp 1 / (Real.exp 1 + Real.exp (-10000)) := by
  rw [lfBandedOut_row cexArgs (by decide) 0 0, show lfW cexArgs = 1 from rfl,
    show (2 * 1 + 1 : ℕ) = 3 from rfl]
  rw [Finset.sum_range_succ, Finset.sum_range_succ, Finset.sum_range_one]
  rw [cex_attn 0, cex_attn 1, cex_attn 2, cex_sc0, cex_sc1, cex_sc2, expB_bot, expB_coe,
    expB_coe]
  rw [show (0 + 0 : ℕ) = 0 from rfl, show (0 + 1 : ℕ) = 1 from rfl,
    show (0 + 2 : ℕ) = 2 from rfl]
  rw [cex_pv0, cex_pv1, cex_pv2]
  ring

theorem cex_banded_val :
    lfForwardModel cexParams 1 1 1 (fun _ => false) (fun _ _ => 0) (fun _ _ _ => 0)
        (fun _ _ _ => 0) (fun _ _ => 1) (fun _ _ => 1) (fun _ _ => 1) 0 0 =
      Real.exp 1 / (Real.exp 1 + Real.exp (-10000)) := by
  rw [lfForwardModel, linApply, show cexParams.h * cexParams.dk = 1 from rfl,
    Finset.sum_range_one]
  rw [show (0 / cexParams.dk : ℕ) = 0 from rfl, show (0 % cexParams.dk : ℕ) = 0 from rfl]
  rw [show lfHeadArgs cexParams 1 1 1 (fun _ => false) (fun _ _ => 0) (fun _ _ _ => 0)
      (fun _ _ _ => 0) (fun _ _ => 1) (fun _ _ => 1) (fun _ _ => 1) 0 = cexArgs from rfl]
  rw [cex_out]
  simp [cexParams]

theorem cex_dense_val :
    denseForwardModel cexParams 1 1 1 (fun _ _ => 0) (fun _ _ => 1) (fun _ _ => 1)
        (fun _ _ => 1) 0 0 = 1 := by
  rw [denseForwardModel, linApply, show cexParams.h * cexParams.dk = 1 from rfl,
    Finset.sum_range_one]
  rw [denseBandedOut, show denseBandSet 1 1 1 0 = {0} from by decide]
  rw [Finset.sum_singleton, Finset.sum_singleton, div_self (Real.exp_ne_zero _), one_mul]
  simp [projHead, linApply, cexParams]

/-- C1 counterexample: for `left = right = 1` and `T = 1` (a `T` that
requires padding to a multiple of `2w = 2`), with identity projections, zero
biases, zero positional table, all-ones inputs and no key-padding mask, the
banded forward output at position `0` is
`exp 1 / (exp 1 + exp (-10000))`, strictly less than the dense band-masked
reference output `1`: the zero-padded frame receives the finite `-10000`
penalty (not `-inf`), keeps softmax weight `exp (-10000) > 0`, and deflates
the weight of the real frame. -/
theorem banded_forward_dense_counterexample :
    lfForwardModel cexParams 1 1 1 (fun _ => false) (fun _ _ => 0) (fun _ _ _ => 0)
        (fun _ _ _ => 0) (fun _ _ => 1) (fun _ _ => 1) (fun _ _ => 1) 0 0 ≠
      denseForwardModel cexParams 1 1 1 (fun _ _ => 0) (fun _ _ => 1) (fun _ _ => 1)
        (fun _ _ => 1) 0 0 := by
  rw [cex_banded_val, cex_dense_val]
  have h2 : (0 : ℝ) < Real.exp (-10000) := Real.exp_pos _
  refine ne_of_lt ?_
  rw [div_lt_one (by positivity)]
  linarith

/-- Witness for `banded_forward_dense_equiv` at the concrete configuration
`left = right = 1`, `T = 2`, zero positional tables, all-ones inputs. -/
theorem banded_forward_dense_equiv_witness :
    (1 : ℕ) = 1 ∧ 0 < 1 ∧ 0 < 2 ∧ 2 % (2 * 1) = 0 ∧ 0 < 2 ∧
      lfForwardModel cexParams 1 1 2 (fun _ => false) (fun _ _ => 0) (fun _ _ _ => 0)
          (fun _ _ _ => 0) (fun _ _ => 1) (fun _ _ => 1) (fun _ _ => 1) 0 0 =
        denseForwardModel cexParams 1 1 2 (fun _ _ => 0) (fun _ _ => 1) (fun _ _ => 1)
          (fun _ _ => 1) 0 0 :=
  ⟨rfl, by decide, by decide, by decide, by decide,
    banded_forward_dense_equiv cexParams 1 1 2 (fun _ => false) (fun _ _ => 0) (fun _ _ _ => 0)
      (fun _ _ _ => 0) (fun _ _ => 0) (fun _ _ => 1) (fun _ _ => 1) (fun _ _ => 1) rfl
      (by decide) (by decide) (by decide) (fun _ => rfl) (fun r ff _ => rfl) 0 0 (by decide)⟩
